import Mathlib

/-!
Verification of `task1.py` (DFA consistency checker).

The source decodes two DFA descriptions, builds their product (intersection)
automaton over the Cartesian state space, and decides consistency by a
breadth-first emptiness search on the product.

Embedding conventions:
* Python dicts become association lists looked up with `dictLookup`
  (first matching key; the source only ever builds dicts with distinct keys).
* Python's fail-fast exceptions become `Except DFAError`; the error kinds
  follow the design taxonomy: a missing field during decode is
  `malformedDescription`, a missing transition-table key at lookup time is
  `undefinedTransition`.
* The breadth-first search of `is_language_empty` is written with an explicit
  fuel parameter so that Lean accepts it as total; `none` means the fuel ran
  out, and we prove the chosen fuel bound always suffices.
-/

set_option linter.unusedSectionVars false

namespace Task1

/-- Error taxonomy of the design: decode-shape failures, structural-invariant
failures, and missing transition entries. -/
inductive DFAError where
  | malformedDescription
  | invalidAutomaton
  | undefinedTransition
deriving DecidableEq, Repr

/-- The `DFA` class of `task1.py` (lines 4-11): states, alphabet, start state,
accept states and the transitions table `transitions[state][symbol] -> next`. -/
structure DFA (σ α : Type) where
  states : List σ
  alphabet : List α
  start_state : σ
  accept_states : List σ
  transitions : List (σ × List (α × σ))

/-- Python dict lookup `d[k]`: the value at the first matching key, `none`
when the key is absent (a `KeyError` in Python). -/
def dictLookup {κ β : Type} [DecidableEq κ] (k : κ) : List (κ × β) → Option β
  | [] => none
  | (k1, v) :: rest => if k1 = k then some v else dictLookup k rest

/-- Transition lookup `dfa.transitions[s][a]` as performed at lines 53-54 and
line 98 of the source: two nested dict lookups, failing when either key is
absent. -/
def DFA.transition {σ α : Type} [DecidableEq σ] [DecidableEq α]
    (d : DFA σ α) (s : σ) (a : α) : Option σ :=
  match dictLookup s d.transitions with
  | none => none
  | some row => dictLookup a row

/-- A decoded description record, as produced by `json.loads`: each of the five
named fields may be absent (field access then raises `KeyError`, the
`malformedDescription` case). -/
structure DFADesc (σ α : Type) where
  states : Option (List σ)
  alphabet : Option (List α)
  start_state : Option σ
  accept_states : Option (List σ)
  transitions : Option (List (σ × List (α × σ)))

/-- Field access `data["field"]` on a decoded record: raises (decode-time
`KeyError`, i.e. `malformedDescription`) when the field is absent. -/
def getField {β : Type} : Option β → Except DFAError β
  | none => .error .malformedDescription
  | some v => .ok v

/-- Lines 13-31 (`parse_dfa_json`): read the five fields in order and build the
`DFA` record; no structural validation is performed. -/
def parse_dfa_json {σ α : Type} (data : DFADesc σ α) : Except DFAError (DFA σ α) :=
  match getField data.states with
  | .error e => .error e
  | .ok states =>
    match getField data.alphabet with
    | .error e => .error e
    | .ok alphabet =>
      match getField data.start_state with
      | .error e => .error e
      | .ok start_state =>
        match getField data.accept_states with
        | .error e => .error e
        | .ok accept_states =>
          match getField data.transitions with
          | .error e => .error e
          | .ok transitions =>
            .ok (DFA.mk states alphabet start_state accept_states transitions)

/-- Lines 44-46: the nested loop `for s1 in dfa1.states: for s2 in dfa2.states`
collecting every pair, in that order. -/
def productStates {σ₁ σ₂ : Type} : List σ₁ → List σ₂ → List (σ₁ × σ₂)
  | [], _ => []
  | s1 :: rest, l2 => (l2.map fun s2 => (s1, s2)) ++ productStates rest l2

/-- Lines 52-55: the transition row of product state `(s1, s2)`, one entry per
symbol of `dfa1.alphabet`, failing at the first missing table entry. -/
def buildRow {σ₁ σ₂ α : Type} [DecidableEq σ₁] [DecidableEq σ₂] [DecidableEq α]
    (d1 : DFA σ₁ α) (d2 : DFA σ₂ α) (s1 : σ₁) (s2 : σ₂) :
    List α → Except DFAError (List (α × (σ₁ × σ₂)))
  | [] => .ok []
  | a :: rest =>
    match d1.transition s1 a with
    | none => .error .undefinedTransition
    | some t1 =>
      match d2.transition s2 a with
      | none => .error .undefinedTransition
      | some t2 =>
        match buildRow d1 d2 s1 s2 rest with
        | .error e => .error e
        | .ok row => .ok ((a, (t1, t2)) :: row)

/-- Lines 49-55: the transition table of the product, one row per product
state, in enumeration order. -/
def buildRows {σ₁ σ₂ α : Type} [DecidableEq σ₁] [DecidableEq σ₂] [DecidableEq α]
    (d1 : DFA σ₁ α) (d2 : DFA σ₂ α) :
    List (σ₁ × σ₂) → Except DFAError (List ((σ₁ × σ₂) × List (α × (σ₁ × σ₂))))
  | [] => .ok []
  | (s1, s2) :: rest =>
    match buildRow d1 d2 s1 s2 d1.alphabet with
    | .error e => .error e
    | .ok row =>
      match buildRows d1 d2 rest with
      | .error e => .error e
      | .ok rest1 => .ok (((s1, s2), row) :: rest1)

/-- Lines 34-72 (`intersect_dfa`): Cartesian product of the state sets, paired
transitions, conjunctive acceptance, paired start state, alphabet of the first
operand. -/
def intersect_dfa {σ₁ σ₂ α : Type} [DecidableEq σ₁] [DecidableEq σ₂] [DecidableEq α]
    (d1 : DFA σ₁ α) (d2 : DFA σ₂ α) : Except DFAError (DFA (σ₁ × σ₂) α) :=
  match buildRows d1 d2 (productStates d1.states d2.states) with
  | .error e => .error e
  | .ok new_transitions =>
    .ok (DFA.mk
      (productStates d1.states d2.states)
      d1.alphabet
      (d1.start_state, d2.start_state)
      ((productStates d1.states d2.states).filter
        fun p => decide (p.1 ∈ d1.accept_states) && decide (p.2 ∈ d2.accept_states))
      new_transitions)

/-- Lines 96-101: the body of the neighbour-expansion loop of
`is_language_empty` — for each remaining symbol, look the successor up and, if
unvisited, mark it visited and append it to the queue. -/
def expand {σ α : Type} [DecidableEq σ] [DecidableEq α] (d : DFA σ α) (s : σ) :
    List α → List σ → List σ → Except DFAError (List σ × List σ)
  | [], queue, visited => .ok (queue, visited)
  | a :: rest, queue, visited =>
    match d.transition s a with
    | none => .error .undefinedTransition
    | some t =>
      if t ∈ visited then expand d s rest queue visited
      else expand d s rest (queue ++ [t]) (t :: visited)

/-- Lines 87-104: the breadth-first loop of `is_language_empty`. The queue head
is the front of the deque; dequeuing an accepting state returns `false`
(language non-empty), an exhausted queue returns `true` (empty). The `fuel`
argument bounds the number of loop iterations; `none` reports that it ran
out. -/
def bfs {σ α : Type} [DecidableEq σ] [DecidableEq α] (d : DFA σ α) :
    Nat → List σ → List σ → Option (Except DFAError Bool)
  | 0, _, _ => none
  | _ + 1, [], _ => some (.ok true)
  | fuel + 1, s :: queue, visited =>
    if s ∈ d.accept_states then some (.ok false)
    else
      match expand d s d.alphabet queue visited with
      | .error e => some (.error e)
      | .ok (queue1, visited1) => bfs d fuel queue1 visited1

/-- All values stored in a transitions table. Every state the search ever
enqueues (apart from the start state) is one of these, which bounds the number
of loop iterations. -/
def transValues {σ α : Type} : List (σ × List (α × σ)) → List σ
  | [] => []
  | (_, row) :: rest => row.map Prod.snd ++ transValues rest

/-- Fuel that always suffices for the search: one iteration per possible
enqueued state, plus the final empty-queue check. -/
def bfsFuel {σ α : Type} (d : DFA σ α) : Nat := (transValues d.transitions).length + 2

/-- Lines 75-104 (`is_language_empty`): start the search with the start state
both enqueued and visited. -/
def is_language_empty {σ α : Type} [DecidableEq σ] [DecidableEq α]
    (d : DFA σ α) : Option (Except DFAError Bool) :=
  bfs d (bfsFuel d) [d.start_state] [d.start_state]

/-- Lines 107-130 (`check_consistency`): decode both descriptions, build the
product, test emptiness, and return `not empty`; any raised error propagates
(the `print` calls are presentation only and are dropped). -/
def check_consistency {σ α : Type} [DecidableEq σ] [DecidableEq α]
    (j1 j2 : DFADesc σ α) : Option (Except DFAError Bool) :=
  match parse_dfa_json j1 with
  | .error e => some (.error e)
  | .ok dfa1 =>
    match parse_dfa_json j2 with
    | .error e => some (.error e)
    | .ok dfa2 =>
      match intersect_dfa dfa1 dfa2 with
      | .error e => some (.error e)
      | .ok dfa_intersection =>
        match is_language_empty dfa_intersection with
        | none => none
        | some (.error e) => some (.error e)
        | some (.ok empty) => some (.ok (!empty))

/-- Iterated transition: the state reached from `s` after reading a word,
`none` as soon as a lookup is undefined. -/
def runWord {σ α : Type} [DecidableEq σ] [DecidableEq α]
    (d : DFA σ α) (s : σ) : List α → Option σ
  | [] => some s
  | a :: w =>
    match d.transition s a with
    | none => none
    | some t => runWord d t w

/-- Reachability in the transition graph along alphabet symbols. -/
inductive Reaches {σ α : Type} [DecidableEq σ] [DecidableEq α]
    (d : DFA σ α) : σ → σ → Prop
  | refl (s : σ) : Reaches d s s
  | step (s : σ) (a : α) (t u : σ) :
      a ∈ d.alphabet → d.transition s a = some t → Reaches d t u → Reaches d s u

/-- The language of the DFA is non-empty: some word over the alphabet drives
the start state to an accepting state. -/
def accepts_some {σ α : Type} [DecidableEq σ] [DecidableEq α] (d : DFA σ α) : Prop :=
  ∃ w : List α, (∀ a ∈ w, a ∈ d.alphabet) ∧
    ∃ t, runWord d d.start_state w = some t ∧ t ∈ d.accept_states

/-- Structural invariants of a valid DFA (design §3): the start state is a
state, accept states are states, and the transition table is total on
`states × alphabet` with results inside `states`. -/
def DFA.Valid {σ α : Type} [DecidableEq σ] [DecidableEq α] (d : DFA σ α) : Prop :=
  d.start_state ∈ d.states ∧
  (∀ s ∈ d.accept_states, s ∈ d.states) ∧
  ∀ s ∈ d.states, ∀ a ∈ d.alphabet, ∃ t, d.transition s a = some t ∧ t ∈ d.states

/-- Executable version of `DFA.Valid`, used to check concrete automata. -/
def validB {σ α : Type} [DecidableEq σ] [DecidableEq α] (d : DFA σ α) : Bool :=
  decide (d.start_state ∈ d.states) &&
  d.accept_states.all (fun s => decide (s ∈ d.states)) &&
  d.states.all fun s => d.alphabet.all fun a =>
    match d.transition s a with
    | some t => decide (t ∈ d.states)
    | none => false

/-- Joint acceptance: a single word over the first operand's alphabet accepted
by both DFAs. This is the semantic reading of "the two properties are
consistent". -/
def JointAccept {σ₁ σ₂ α : Type} [DecidableEq σ₁] [DecidableEq σ₂] [DecidableEq α]
    (d1 : DFA σ₁ α) (d2 : DFA σ₂ α) : Prop :=
  ∃ w : List α, (∀ a ∈ w, a ∈ d1.alphabet) ∧
    (∃ t1, runWord d1 d1.start_state w = some t1 ∧ t1 ∈ d1.accept_states) ∧
    (∃ t2, runWord d2 d2.start_state w = some t2 ∧ t2 ∈ d2.accept_states)

/-- Concrete description of the `x0` automaton of the source's driver code
("at least one 0 and at least one 1"), with states renamed q0..q3 to 0..3 and
symbols "0","1" to 0,1. -/
def exDesc1 : DFADesc Nat Nat :=
  ⟨some [0, 1, 2, 3], some [0, 1], some 0, some [3],
    some [(0, [(0, 1), (1, 2)]), (1, [(0, 1), (1, 3)]),
          (2, [(0, 3), (1, 2)]), (3, [(0, 3), (1, 3)])]⟩

/-- The DFA decoded from `exDesc1`. -/
def exDfa1 : DFA Nat Nat :=
  ⟨[0, 1, 2, 3], [0, 1], 0, [3],
    [(0, [(0, 1), (1, 2)]), (1, [(0, 1), (1, 3)]),
     (2, [(0, 3), (1, 2)]), (3, [(0, 3), (1, 3)])]⟩

/-- Concrete description of the `x1` automaton of the source's driver code
("at least one 1"), with states r0,r1 as 0,1. -/
def exDesc2 : DFADesc Nat Nat :=
  ⟨some [0, 1], some [0, 1], some 0, some [1],
    some [(0, [(0, 0), (1, 1)]), (1, [(0, 1), (1, 1)])]⟩

/-- The DFA decoded from `exDesc2`. -/
def exDfa2 : DFA Nat Nat :=
  ⟨[0, 1], [0, 1], 0, [1],
    [(0, [(0, 0), (1, 1)]), (1, [(0, 1), (1, 1)])]⟩

/-- A description with the `start_state` field missing. -/
def exDescNoStart : DFADesc Nat Nat := ⟨some [0], some [0], none, some [], some []⟩

/-- A DFA whose start state is accepting and whose transition table is
entirely missing. -/
def exStartAccept : DFA Nat Nat := ⟨[0], [0], 0, [0], []⟩

/-- A DFA with a non-accepting start state and an empty transition table:
the search must hit an undefined transition. -/
def exPartial : DFA Nat Nat := ⟨[0, 1], [0], 0, [1], []⟩

/-- A valid DFA whose transition table carries an extra row for the label 1,
which is not a member of `states`. -/
def exExtraRow : DFA Nat Nat := ⟨[0], [0], 0, [], [(0, [(0, 0)]), (1, [(0, 0)])]⟩

section Lemmas

variable {σ α : Type} [DecidableEq σ] [DecidableEq α]

theorem validB_iff (d : DFA σ α) : validB d = true ↔ d.Valid := by
  unfold validB DFA.Valid
  simp only [Bool.and_eq_true, List.all_eq_true, decide_eq_true_eq]
  constructor
  · rintro ⟨⟨hs, ha⟩, ht⟩
    refine ⟨hs, ha, fun s hsm a ham => ?_⟩
    have := ht s hsm a ham
    cases h : d.transition s a with
    | none => rw [h] at this; exact absurd this (by simp)
    | some t => rw [h] at this; exact ⟨t, rfl, by simpa using this⟩
  · rintro ⟨hs, ha, ht⟩
    refine ⟨⟨hs, ha⟩, fun s hsm a ham => ?_⟩
    obtain ⟨t, h1, h2⟩ := ht s hsm a ham
    rw [h1]
    simpa using h2

theorem dictLookup_some_mem {β : Type} {k : σ} {v : β} :
    ∀ {l : List (σ × β)}, dictLookup k l = some v → (k, v) ∈ l := by
  intro l
  induction l with
  | nil => intro h; simp [dictLookup] at h
  | cons p rest ih =>
    obtain ⟨k1, v1⟩ := p
    intro h
    simp only [dictLookup] at h
    by_cases hk : k1 = k
    · simp [hk] at h
      simp [hk, h]
    · simp [hk] at h
      exact List.mem_cons_of_mem _ (ih h)

theorem mem_transValues {trs : List (σ × List (α × σ))} {s : σ} {row : List (α × σ)}
    (hrow : (s, row) ∈ trs) {t : σ} (ht : t ∈ row.map Prod.snd) :
    t ∈ transValues trs := by
  induction trs with
  | nil => simp at hrow
  | cons p rest ih =>
    obtain ⟨s1, row1⟩ := p
    simp only [transValues, List.mem_append]
    rcases List.mem_cons.mp hrow with h | h
    · left
      injection h with h1 h2
      subst h2
      exact ht
    · right
      exact ih h

theorem transition_mem_transValues {d : DFA σ α} {s : σ} {a : α} {t : σ}
    (h : d.transition s a = some t) : t ∈ transValues d.transitions := by
  unfold DFA.transition at h
  cases hrow : dictLookup s d.transitions with
  | none => rw [hrow] at h; exact absurd h (by simp)
  | some row =>
    rw [hrow] at h
    refine mem_transValues (dictLookup_some_mem hrow) ?_
    have := dictLookup_some_mem h
    exact List.mem_map.mpr ⟨(a, t), this, rfl⟩

theorem reaches_snoc {d : DFA σ α} {a : α} {t : σ} (ha : a ∈ d.alphabet) :
    ∀ {x y : σ}, Reaches d x y → d.transition y a = some t → Reaches d x t := by
  intro x y h
  induction h with
  | refl s => intro ht; exact Reaches.step s a t t ha ht (Reaches.refl t)
  | step s b u v hb hu _ ih => intro ht; exact Reaches.step s b u t hb hu (ih ht)

theorem reaches_iff_runWord {d : DFA σ α} {s t : σ} :
    Reaches d s t ↔ ∃ w : List α, (∀ a ∈ w, a ∈ d.alphabet) ∧ runWord d s w = some t := by
  constructor
  · intro h
    induction h with
    | refl s => exact ⟨[], by simp, rfl⟩
    | step s a u v ha hu _ ih =>
      obtain ⟨w, hw, hrun⟩ := ih
      exact ⟨a :: w, by simpa using ⟨ha, hw⟩, by simp [runWord, hu, hrun]⟩
  · rintro ⟨w, hw, hrun⟩
    induction w generalizing s with
    | nil => simp [runWord] at hrun; subst hrun; exact Reaches.refl s
    | cons a w ih =>
      simp only [runWord] at hrun
      cases htr : d.transition s a with
      | none => rw [htr] at hrun; exact absurd hrun (by simp)
      | some u =>
        rw [htr] at hrun
        exact Reaches.step s a u t (hw a (by simp)) htr
          (ih (fun b hb => hw b (by simp [hb])) hrun)

theorem expand_spec {d : DFA σ α} {s : σ} :
    ∀ {syms : List α} {q v q1 v1 : List σ},
      expand d s syms q v = .ok (q1, v1) →
      ∃ ns : List σ,
        q1 = q ++ ns ∧
        List.Perm v1 (ns ++ v) ∧
        ns.Nodup ∧
        (∀ x ∈ ns, x ∉ v) ∧
        (∀ x ∈ ns, ∃ a ∈ syms, d.transition s a = some x) ∧
        (∀ a ∈ syms, ∀ t, d.transition s a = some t → t ∈ v1) := by
  intro syms
  induction syms with
  | nil =>
    intro q v q1 v1 h
    simp only [expand] at h
    injection h with h
    obtain ⟨h1, h2⟩ := Prod.mk.injEq .. ▸ h
    refine ⟨[], by simp [← h1], by simp [← h2], by simp, by simp, by simp, by simp⟩
  | cons a rest ih =>
    intro q v q1 v1 h
    cases htr : d.transition s a with
    | none => simp [expand, htr] at h
    | some t =>
      simp only [expand, htr] at h
      by_cases hv : t ∈ v
      · rw [if_pos hv] at h
        obtain ⟨ns, hq, hperm, hnd, hnv, hsucc, hcov⟩ := ih h
        refine ⟨ns, hq, hperm, hnd, hnv, ?_, ?_⟩
        · intro x hx
          obtain ⟨b, hb, hbx⟩ := hsucc x hx
          exact ⟨b, by simp [hb], hbx⟩
        · intro b hb u hu
          rcases List.mem_cons.mp hb with rfl | hb

          · rw [htr] at hu
            injection hu with hu
            subst hu
            exact (hperm.mem_iff).mpr (by simp [hv])
          · exact hcov b hb u hu
      · rw [if_neg hv] at h
        obtain ⟨ns, hq, hperm, hnd, hnv, hsucc, hcov⟩ := ih h
        have htns : t ∉ ns := fun hx => (hnv t hx) (by simp)
        refine ⟨t :: ns, by simp [hq], ?_, by simp [htns, hnd], ?_, ?_, ?_⟩
        · exact hperm.trans List.perm_middle
        · intro x hx
          rcases List.mem_cons.mp hx with rfl | hx
          · exact hv
          · exact fun hxv => (hnv x hx) (by simp [hxv])
        · intro x hx
          rcases List.mem_cons.mp hx with rfl | hx
          · exact ⟨a, by simp, htr⟩
          · obtain ⟨b, hb, hbx⟩ := hsucc x hx
            exact ⟨b, by simp [hb], hbx⟩
        · intro b hb u hu
          rcases List.mem_cons.mp hb with rfl | hb
          · rw [htr] at hu
            injection hu with hu
            subst hu
            exact (hperm.mem_iff).mpr (by simp)
          · exact hcov b hb u hu

theorem expand_ok_of_total {d : DFA σ α} {s : σ} :
    ∀ {syms : List α} (q v : List σ),
      (∀ a ∈ syms, ∃ t, d.transition s a = some t) →
      ∃ q1 v1, expand d s syms q v = .ok (q1, v1) := by
  intro syms
  induction syms with
  | nil => intro q v _; exact ⟨q, v, rfl⟩
  | cons a rest ih =>
    intro q v htot
    obtain ⟨t, ht⟩ := htot a (by simp)
    have hrest : ∀ b ∈ rest, ∃ u, d.transition s b = some u :=
      fun b hb => htot b (by simp [hb])
    simp only [expand, ht]
    by_cases hv : t ∈ v
    · simpa [hv] using ih q v hrest
    · simpa [hv] using ih (q ++ [t]) (t :: v) hrest

theorem expand_error_of_missing {d : DFA σ α} {s : σ} :
    ∀ {syms : List α} (q v : List σ),
      (∃ a ∈ syms, d.transition s a = none) →
      expand d s syms q v = .error .undefinedTransition := by
  intro syms
  induction syms with
  | nil => intro q v h; simp at h
  | cons a rest ih =>
    intro q v h
    obtain ⟨b, hb, hbnone⟩ := h
    cases htr : d.transition s a with
    | none => simp [expand, htr]
    | some t =>
      rcases List.mem_cons.mp hb with rfl | hb
      · rw [htr] at hbnone; exact absurd hbnone (by simp)
      · simp only [expand, htr]
        by_cases hv : t ∈ v
        · simpa [hv] using ih q v ⟨b, hb, hbnone⟩
        · simpa [hv] using ih (q ++ [t]) (t :: v) ⟨b, hb, hbnone⟩

theorem bfs_mono {d : DFA σ α} :
    ∀ {fuel fuel1 : Nat} {q v : List σ} {r : Except DFAError Bool},
      fuel ≤ fuel1 → bfs d fuel q v = some r → bfs d fuel1 q v = some r := by
  intro fuel
  induction fuel with
  | zero => intro fuel1 q v r _ h; simp [bfs] at h
  | succ fuel ih =>
    intro fuel1 q v r hle h
    cases fuel1 with
    | zero => omega
    | succ fuel1 =>
      cases q with
      | nil => simpa [bfs] using h
      | cons s q0 =>
        simp only [bfs] at h ⊢
        by_cases hacc : s ∈ d.accept_states
        · simpa [hacc] using h
        · rw [if_neg hacc] at h ⊢
          cases hexp : expand d s d.alphabet q0 v with
          | error e => rw [hexp] at h; exact h
          | ok pair =>
            rw [hexp] at h
            obtain ⟨q1, v1⟩ := pair
            exact ih (by omega) h

theorem reaches_mem_closed {d : DFA σ α} {v : List σ}
    (hcl : ∀ x ∈ v, ∀ a ∈ d.alphabet, ∀ t, d.transition x a = some t → t ∈ v) :
    ∀ {s t : σ}, Reaches d s t → s ∈ v → t ∈ v := by
  intro s t h
  induction h with
  | refl s => exact id
  | step s a u w ha hu _ ih => intro hs; exact ih (hcl s hs a ha u hu)

theorem bfs_sound {d : DFA σ α} {r : σ} :
    ∀ {fuel : Nat} {q v : List σ},
      (∀ x ∈ q, Reaches d r x) →
      bfs d fuel q v = some (.ok false) →
      ∃ t, Reaches d r t ∧ t ∈ d.accept_states := by
  intro fuel
  induction fuel with
  | zero => intro q v _ h; simp [bfs] at h
  | succ fuel ih =>
    intro q v hq h
    cases q with
    | nil => simp [bfs] at h
    | cons s q0 =>
      simp only [bfs] at h
      by_cases hacc : s ∈ d.accept_states
      · exact ⟨s, hq s (by simp), hacc⟩
      · rw [if_neg hacc] at h
        cases hexp : expand d s d.alphabet q0 v with
        | error e => rw [hexp] at h; simp at h
        | ok pair =>
          rw [hexp] at h
          obtain ⟨q1, v1⟩ := pair
          obtain ⟨ns, hq1, _, _, _, hsucc, _⟩ := expand_spec hexp
          refine ih ?_ h
          intro x hx
          rw [hq1] at hx
          rcases List.mem_append.mp hx with hx | hx
          · exact hq x (by simp [hx])
          · obtain ⟨a, ha, hax⟩ := hsucc x hx
            exact reaches_snoc ha (hq s (by simp)) hax

theorem bfs_complete {d : DFA σ α} :
    ∀ {fuel : Nat} {q v : List σ},
      (∀ x ∈ q, x ∈ v) →
      (∀ x ∈ v, x ∈ q ∨
        (x ∉ d.accept_states ∧ ∀ a ∈ d.alphabet, ∀ t, d.transition x a = some t → t ∈ v)) →
      bfs d fuel q v = some (.ok true) →
      ∀ s ∈ v, ∀ t, Reaches d s t → t ∉ d.accept_states := by
  intro fuel
  induction fuel with
  | zero => intro q v _ _ h; simp [bfs] at h
  | succ fuel ih =>
    intro q v hqv hproc h
    cases q with
    | nil =>
      intro s hs t hreach
      have hcl : ∀ x ∈ v, ∀ a ∈ d.alphabet, ∀ u, d.transition x a = some u → u ∈ v := by
        intro x hx
        rcases hproc x hx with hx0 | ⟨_, hcl⟩
        · simp at hx0
        · exact hcl
      have htv : t ∈ v := reaches_mem_closed hcl hreach hs
      rcases hproc t htv with ht0 | ⟨hna, _⟩
      · simp at ht0
      · exact hna
    | cons s0 q0 =>
      simp only [bfs] at h
      by_cases hacc : s0 ∈ d.accept_states
      · simp [hacc] at h
      · rw [if_neg hacc] at h
        cases hexp : expand d s0 d.alphabet q0 v with
        | error e => rw [hexp] at h; simp at h
        | ok pair =>
          rw [hexp] at h
          obtain ⟨q1, v1⟩ := pair
          obtain ⟨ns, hq1, hperm, _, _, hsucc, hcov⟩ := expand_spec hexp
          have hvv1 : ∀ x ∈ v, x ∈ v1 := fun x hx => hperm.mem_iff.mpr (by simp [hx])
          have hq1v1 : ∀ x ∈ q1, x ∈ v1 := by
            intro x hx
            rw [hq1] at hx
            rcases List.mem_append.mp hx with hx | hx
            · exact hvv1 x (hqv x (by simp [hx]))
            · exact hperm.mem_iff.mpr (by simp [hx])
          have hproc1 : ∀ x ∈ v1, x ∈ q1 ∨
              (x ∉ d.accept_states ∧
                ∀ a ∈ d.alphabet, ∀ t, d.transition x a = some t → t ∈ v1) := by
            intro x hx
            rcases List.mem_append.mp (hperm.mem_iff.mp hx) with hx | hx
            · left; rw [hq1]; exact List.mem_append.mpr (Or.inr hx)
            · rcases hproc x hx with hx0 | ⟨hna, hcl⟩
              · rcases List.mem_cons.mp hx0 with rfl | hx0
                · right
                  exact ⟨hacc, fun a ha t ht => hcov a ha t ht⟩
                · left; rw [hq1]; exact List.mem_append.mpr (Or.inl hx0)
              · right
                exact ⟨hna, fun a ha t ht => hvv1 t (hcl a ha t ht)⟩
          intro s hs t hreach
          exact ih hq1v1 hproc1 h s (hvv1 s hs) t hreach

theorem bfs_no_error {d : DFA σ α} (hv : d.Valid) :
    ∀ {fuel : Nat} {q v : List σ},
      (∀ x ∈ q, x ∈ d.states) →
      ∀ {e : DFAError}, bfs d fuel q v ≠ some (.error e) := by
  intro fuel
  induction fuel with
  | zero => intro q v _ e h; simp [bfs] at h
  | succ fuel ih =>
    intro q v hq e h
    cases q with
    | nil => simp [bfs] at h
    | cons s q0 =>
      simp only [bfs] at h
      by_cases hacc : s ∈ d.accept_states
      · simp [hacc] at h
      · rw [if_neg hacc] at h
        have hs : s ∈ d.states := hq s (by simp)
        have htot : ∀ a ∈ d.alphabet, ∃ t, d.transition s a = some t := by
          intro a ha
          obtain ⟨t, ht, _⟩ := hv.2.2 s hs a ha
          exact ⟨t, ht⟩
        obtain ⟨q1, v1, hexp⟩ := expand_ok_of_total q0 v htot
        rw [hexp] at h
        obtain ⟨ns, hq1, _, _, _, hsucc, _⟩ := expand_spec hexp
        refine ih ?_ h
        intro x hx
        rw [hq1] at hx
        rcases List.mem_append.mp hx with hx | hx
        · exact hq x (by simp [hx])
        · obtain ⟨a, ha, hax⟩ := hsucc x hx
          obtain ⟨t, ht, htm⟩ := hv.2.2 s hs a ha
          rw [ht] at hax
          injection hax with hax
          rw [← hax]
          exact htm

theorem bfs_fuel_sufficient {d : DFA σ α} {U : List σ}
    (hcl : ∀ s ∈ U, ∀ a ∈ d.alphabet, ∀ t, d.transition s a = some t → t ∈ U) :
    ∀ {fuel : Nat} {q v : List σ},
      v.Nodup → (∀ x ∈ q, x ∈ v) → (∀ x ∈ v, x ∈ U) →
      U.length - v.length + q.length + 1 ≤ fuel →
      bfs d fuel q v ≠ none := by
  intro fuel
  induction fuel with
  | zero => intro q v _ _ _ hm; omega
  | succ fuel ih =>
    intro q v hnd hqv hvU hm
    cases q with
    | nil => simp [bfs]
    | cons s q0 =>
      simp only [bfs]
      by_cases hacc : s ∈ d.accept_states
      · simp [hacc]
      · rw [if_neg hacc]
        cases hexp : expand d s d.alphabet q0 v with
        | error e => simp
        | ok pair =>
          obtain ⟨q1, v1⟩ := pair
          obtain ⟨ns, hq1, hperm, hnsnd, hnsv, hsucc, _⟩ := expand_spec hexp
          have hnd1 : v1.Nodup := by
            refine hperm.symm.nodup ?_
            rw [List.nodup_append]
            exact ⟨hnsnd, hnd, fun x hx => hnsv x hx⟩
          have hsU : s ∈ U := hvU s (hqv s (by simp))
          have hvU1 : ∀ x ∈ v1, x ∈ U := by
            intro x hx
            rcases List.mem_append.mp (hperm.mem_iff.mp hx) with hx | hx
            · obtain ⟨a, ha, hax⟩ := hsucc x hx
              exact hcl s hsU a ha x hax
            · exact hvU x hx
          have hq1v1 : ∀ x ∈ q1, x ∈ v1 := by
            intro x hx
            rw [hq1] at hx
            rcases List.mem_append.mp hx with hx | hx
            · exact hperm.mem_iff.mpr (by simp [hqv x (by simp [hx])])
            · exact hperm.mem_iff.mpr (by simp [hx])
          have hlen1 : v1.length ≤ U.length :=
            ((hnd1.subperm) hvU1).length_le
          have hlenv1 : v1.length = ns.length + v.length := by
            rw [hperm.length_eq, List.length_append]
          have hlenq1 : q1.length = q0.length + ns.length := by
            rw [hq1, List.length_append]
          refine ih hnd1 hq1v1 hvU1 ?_
          simp only [List.length_cons] at hm
          omega

theorem is_language_empty_ne_none (d : DFA σ α) : is_language_empty d ≠ none := by
  unfold is_language_empty bfsFuel
  have hcl : ∀ s ∈ d.start_state :: transValues d.transitions, ∀ a ∈ d.alphabet, ∀ t,
      d.transition s a = some t → t ∈ d.start_state :: transValues d.transitions :=
    fun s _ a _ t ht => List.mem_cons_of_mem _ (transition_mem_transValues ht)
  refine bfs_fuel_sufficient hcl (by simp) (by simp) ?_ ?_
  · intro x hx
    simp only [List.mem_singleton] at hx
    simp [hx]
  · simp

theorem accepts_some_iff_reaches (d : DFA σ α) :
    accepts_some d ↔ ∃ t, Reaches d d.start_state t ∧ t ∈ d.accept_states := by
  unfold accepts_some
  constructor
  · rintro ⟨w, hw, t, hrun, hacc⟩
    exact ⟨t, reaches_iff_runWord.mpr ⟨w, hw, hrun⟩, hacc⟩
  · rintro ⟨t, hr, hacc⟩
    obtain ⟨w, hw, hrun⟩ := reaches_iff_runWord.mp hr
    exact ⟨w, hw, t, hrun, hacc⟩

theorem is_language_empty_sound {d : DFA σ α}
    (h : is_language_empty d = some (.ok false)) : accepts_some d := by
  rw [accepts_some_iff_reaches]
  refine bfs_sound ?_ h
  intro x hx
  simp only [List.mem_singleton] at hx
  rw [hx]
  exact Reaches.refl _

theorem is_language_empty_complete {d : DFA σ α}
    (h : is_language_empty d = some (.ok true)) : ¬ accepts_some d := by
  rw [accepts_some_iff_reaches]
  rintro ⟨t, hr, hacc⟩
  refine bfs_complete (by simp) ?_ h d.start_state (by simp) t hr hacc
  intro x hx
  simp only [List.mem_singleton] at hx
  simp [hx]

theorem is_language_empty_exhaustive {d : DFA σ α} (hv : d.Valid) :
    is_language_empty d = some (.ok true) ∨ is_language_empty d = some (.ok false) := by
  cases h : is_language_empty d with
  | none => exact absurd h (is_language_empty_ne_none d)
  | some r =>
    cases r with
    | error e =>
      refine absurd h (bfs_no_error hv ?_)
      intro x hx
      simp only [List.mem_singleton] at hx
      rw [hx]
      exact hv.1
    | ok b => cases b <;> simp

theorem is_language_empty_true_iff {d : DFA σ α} (hv : d.Valid) :
    is_language_empty d = some (.ok true) ↔ ¬ accepts_some d := by
  constructor
  · exact is_language_empty_complete
  · intro hna
    rcases is_language_empty_exhaustive hv with h | h
    · exact h
    · exact absurd (is_language_empty_sound h) hna

theorem is_language_empty_error_of_missing {d : DFA σ α}
    (hna : d.start_state ∉ d.accept_states)
    (hmiss : ∃ a ∈ d.alphabet, d.transition d.start_state a = none) :
    is_language_empty d = some (.error .undefinedTransition) := by
  have hexp := expand_error_of_missing ([] : List σ) [d.start_state] hmiss
  unfold is_language_empty bfsFuel
  simp only [bfs, if_neg hna, hexp]

theorem transition_none_iff {d : DFA σ α} {s : σ} {a : α} :
    d.transition s a = none ↔ dictLookup s d.transitions = none ∨
      ∃ row, dictLookup s d.transitions = some row ∧ dictLookup a row = none := by
  unfold DFA.transition
  cases h : dictLookup s d.transitions with
  | none => simp
  | some row => simp

theorem is_language_empty_false_iff {d : DFA σ α} (hv : d.Valid) :
    is_language_empty d = some (.ok false) ↔ accepts_some d := by
  constructor
  · exact is_language_empty_sound
  · intro ha
    rcases is_language_empty_exhaustive hv with h | h
    · exact absurd ha (is_language_empty_complete h)
    · exact h

end Lemmas

section ProductLemmas

variable {σ₁ σ₂ α : Type} [DecidableEq σ₁] [DecidableEq σ₂] [DecidableEq α]

theorem productStates_mem {l1 : List σ₁} {l2 : List σ₂} {x : σ₁ × σ₂} :
    x ∈ productStates l1 l2 ↔ x.1 ∈ l1 ∧ x.2 ∈ l2 := by
  induction l1 with
  | nil => simp [productStates]
  | cons s1 rest ih =>
    obtain ⟨a, b⟩ := x
    simp only [productStates, List.mem_append, List.mem_map, List.mem_cons, ih,
      Prod.mk.injEq]
    constructor
    · rintro (⟨s2, hs2, rfl, rfl⟩ | ⟨h1, h2⟩)
      · exact ⟨Or.inl rfl, hs2⟩
      · exact ⟨Or.inr h1, h2⟩
    · rintro ⟨rfl | h1, h2⟩
      · exact Or.inl ⟨b, h2, rfl, rfl⟩
      · exact Or.inr ⟨h1, h2⟩

theorem productStates_length (l1 : List σ₁) (l2 : List σ₂) :
    (productStates l1 l2).length = l1.length * l2.length := by
  induction l1 with
  | nil => simp [productStates]
  | cons s1 rest ih =>
    simp only [productStates, List.length_append, List.length_map, List.length_cons, ih]
    ring

theorem buildRow_ok_of_total {d1 : DFA σ₁ α} {d2 : DFA σ₂ α} {s1 : σ₁} {s2 : σ₂} :
    ∀ {syms : List α},
      (∀ a ∈ syms, ∃ t1, d1.transition s1 a = some t1) →
      (∀ a ∈ syms, ∃ t2, d2.transition s2 a = some t2) →
      ∃ row, buildRow d1 d2 s1 s2 syms = .ok row := by
  intro syms
  induction syms with
  | nil => intro _ _; exact ⟨[], rfl⟩
  | cons a rest ih =>
    intro ht1 ht2
    obtain ⟨t1, h1⟩ := ht1 a (by simp)
    obtain ⟨t2, h2⟩ := ht2 a (by simp)
    obtain ⟨row, hrow⟩ := ih (fun b hb => ht1 b (by simp [hb])) (fun b hb => ht2 b (by simp [hb]))
    exact ⟨(a, (t1, t2)) :: row, by simp only [buildRow, h1, h2, hrow]⟩

theorem buildRow_lookup {d1 : DFA σ₁ α} {d2 : DFA σ₂ α} {s1 : σ₁} {s2 : σ₂} :
    ∀ {syms : List α} {row : List (α × (σ₁ × σ₂))},
      buildRow d1 d2 s1 s2 syms = .ok row →
      ∀ a ∈ syms, ∀ t1 t2,
        d1.transition s1 a = some t1 → d2.transition s2 a = some t2 →
        dictLookup a row = some (t1, t2) := by
  intro syms
  induction syms with
  | nil => intro row _ a ha; simp at ha
  | cons b rest ih =>
    intro row h a ha t1 t2 ht1 ht2
    cases hb1 : d1.transition s1 b with
    | none => simp [buildRow, hb1] at h
    | some u1 =>
      cases hb2 : d2.transition s2 b with
      | none => simp [buildRow, hb1, hb2] at h
      | some u2 =>
        cases hrec : buildRow d1 d2 s1 s2 rest with
        | error e => simp [buildRow, hb1, hb2, hrec] at h
        | ok row1 =>
          simp only [buildRow, hb1, hb2, hrec] at h
          injection h with h
          subst h
          by_cases hba : b = a
          · subst hba
            rw [hb1] at ht1
            rw [hb2] at ht2
            injection ht1 with ht1
            injection ht2 with ht2
            simp [dictLookup, ht1, ht2]
          · rcases List.mem_cons.mp ha with rfl | ha
            · exact absurd rfl hba
            · simp only [dictLookup, if_neg hba]
              exact ih hrec a ha t1 t2 ht1 ht2

theorem buildRows_ok {d1 : DFA σ₁ α} {d2 : DFA σ₂ α} :
    ∀ {l : List (σ₁ × σ₂)},
      (∀ p ∈ l, ∃ row, buildRow d1 d2 p.1 p.2 d1.alphabet = .ok row) →
      ∃ trs, buildRows d1 d2 l = .ok trs := by
  intro l
  induction l with
  | nil => intro _; exact ⟨[], rfl⟩
  | cons p rest ih =>
    intro h
    obtain ⟨s1, s2⟩ := p
    obtain ⟨row, hrow⟩ := h (s1, s2) (by simp)
    obtain ⟨trs, htrs⟩ := ih (fun x hx => h x (by simp [hx]))
    exact ⟨((s1, s2), row) :: trs, by simp only [buildRows, hrow, htrs]⟩

theorem buildRows_lookup {d1 : DFA σ₁ α} {d2 : DFA σ₂ α} :
    ∀ {l : List (σ₁ × σ₂)} {trs : List ((σ₁ × σ₂) × List (α × (σ₁ × σ₂)))},
      buildRows d1 d2 l = .ok trs →
      ∀ p ∈ l, ∃ row, buildRow d1 d2 p.1 p.2 d1.alphabet = .ok row ∧
        dictLookup p trs = some row := by
  intro l
  induction l with
  | nil => intro trs _ p hp; simp at hp
  | cons x rest ih =>
    intro trs h p hp
    obtain ⟨s1, s2⟩ := x
    cases hr : buildRow d1 d2 s1 s2 d1.alphabet with
    | error e => simp [buildRows, hr] at h
    | ok row =>
      cases hrs : buildRows d1 d2 rest with
      | error e => simp [buildRows, hr, hrs] at h
      | ok trs1 =>
        simp only [buildRows, hr, hrs] at h
        injection h with h
        subst h
        by_cases hx : (s1, s2) = p
        · subst hx
          exact ⟨row, hr, by simp [dictLookup]⟩
        · rcases List.mem_cons.mp hp with rfl | hp
          · exact absurd rfl hx
          · obtain ⟨row1, h1, h2⟩ := ih hrs p hp
            exact ⟨row1, h1, by simp only [dictLookup, if_neg hx]; exact h2⟩

theorem intersect_dfa_spec {d1 : DFA σ₁ α} {d2 : DFA σ₂ α}
    (h1 : d1.Valid) (h2 : d2.Valid) (hal : d1.alphabet = d2.alphabet) :
    ∃ p : DFA (σ₁ × σ₂) α,
      intersect_dfa d1 d2 = .ok p ∧
      p.states = productStates d1.states d2.states ∧
      p.alphabet = d1.alphabet ∧
      p.start_state = (d1.start_state, d2.start_state) ∧
      (∀ x : σ₁ × σ₂, x ∈ p.accept_states ↔
        x.1 ∈ d1.states ∧ x.2 ∈ d2.states ∧
        x.1 ∈ d1.accept_states ∧ x.2 ∈ d2.accept_states) ∧
      (∀ s1 ∈ d1.states, ∀ s2 ∈ d2.states, ∀ a ∈ d1.alphabet, ∀ t1 t2,
        d1.transition s1 a = some t1 → d2.transition s2 a = some t2 →
        p.transition (s1, s2) a = some (t1, t2)) ∧
      p.Valid := by
  have hrows : ∀ p ∈ productStates d1.states d2.states,
      ∃ row, buildRow d1 d2 p.1 p.2 d1.alphabet = .ok row := by
    intro p hp
    obtain ⟨hp1, hp2⟩ := productStates_mem.mp hp
    refine buildRow_ok_of_total ?_ ?_
    · intro a ha
      obtain ⟨t, ht, _⟩ := h1.2.2 p.1 hp1 a ha
      exact ⟨t, ht⟩
    · intro a ha
      obtain ⟨t, ht, _⟩ := h2.2.2 p.2 hp2 a (hal ▸ ha)
      exact ⟨t, ht⟩
  obtain ⟨trs, htrs⟩ := buildRows_ok hrows
  refine ⟨DFA.mk (productStates d1.states d2.states) d1.alphabet
      (d1.start_state, d2.start_state)
      ((productStates d1.states d2.states).filter
        fun p => decide (p.1 ∈ d1.accept_states) && decide (p.2 ∈ d2.accept_states))
      trs,
    ?_, rfl, rfl, rfl, ?_, ?_, ?_⟩
  · simp only [intersect_dfa, htrs]
  · intro x
    simp only [List.mem_filter, productStates_mem, Bool.and_eq_true, decide_eq_true_eq]
    tauto
  · intro s1 hs1 s2 hs2 a ha t1 t2 ht1 ht2
    obtain ⟨row, hrow, hlook⟩ :=
      buildRows_lookup htrs (s1, s2) (productStates_mem.mpr ⟨hs1, hs2⟩)
    show DFA.transition _ (s1, s2) a = some (t1, t2)
    unfold DFA.transition
    simp only []
    rw [hlook]
    exact buildRow_lookup hrow a ha t1 t2 ht1 ht2
  · refine ⟨productStates_mem.mpr ⟨h1.1, h2.1⟩, ?_, ?_⟩
    · intro s hs
      exact List.mem_of_mem_filter hs
    · intro s hs a ha
      obtain ⟨hs1, hs2⟩ := productStates_mem.mp hs
      obtain ⟨t1, ht1, htm1⟩ := h1.2.2 s.1 hs1 a ha
      obtain ⟨t2, ht2, htm2⟩ := h2.2.2 s.2 hs2 a (hal ▸ ha)
      obtain ⟨row, hrow, hlook⟩ := buildRows_lookup htrs s hs
      refine ⟨(t1, t2), ?_, productStates_mem.mpr ⟨htm1, htm2⟩⟩
      show DFA.transition _ s a = some (t1, t2)
      unfold DFA.transition
      simp only []
      rw [hlook]
      exact buildRow_lookup hrow a ha t1 t2 ht1 ht2

theorem product_runWord {d1 : DFA σ₁ α} {d2 : DFA σ₂ α} {p : DFA (σ₁ × σ₂) α}
    (h1 : d1.Valid) (h2 : d2.Valid) (hal : d1.alphabet = d2.alphabet)
    (htr : ∀ s1 ∈ d1.states, ∀ s2 ∈ d2.states, ∀ a ∈ d1.alphabet, ∀ t1 t2,
      d1.transition s1 a = some t1 → d2.transition s2 a = some t2 →
      p.transition (s1, s2) a = some (t1, t2)) :
    ∀ {w : List α}, (∀ a ∈ w, a ∈ d1.alphabet) →
    ∀ {s1 : σ₁}, s1 ∈ d1.states → ∀ {s2 : σ₂}, s2 ∈ d2.states →
    ∃ t1 t2, runWord d1 s1 w = some t1 ∧ runWord d2 s2 w = some t2 ∧
      runWord p (s1, s2) w = some (t1, t2) ∧ t1 ∈ d1.states ∧ t2 ∈ d2.states := by
  intro w
  induction w with
  | nil => intro _ s1 hs1 s2 hs2; exact ⟨s1, s2, rfl, rfl, rfl, hs1, hs2⟩
  | cons a w ih =>
    intro hw s1 hs1 s2 hs2
    have ha : a ∈ d1.alphabet := hw a (by simp)
    obtain ⟨u1, hu1, hm1⟩ := h1.2.2 s1 hs1 a ha
    obtain ⟨u2, hu2, hm2⟩ := h2.2.2 s2 hs2 a (hal ▸ ha)
    obtain ⟨t1, t2, hr1, hr2, hrp, htm1, htm2⟩ :=
      ih (fun b hb => hw b (by simp [hb])) hm1 hm2
    refine ⟨t1, t2, ?_, ?_, ?_, htm1, htm2⟩
    · simp only [runWord, hu1]; exact hr1
    · simp only [runWord, hu2]; exact hr2
    · simp only [runWord, htr s1 hs1 s2 hs2 a ha u1 u2 hu1 hu2]; exact hrp

theorem product_accepts_iff {d1 : DFA σ₁ α} {d2 : DFA σ₂ α}
    (h1 : d1.Valid) (h2 : d2.Valid) (hal : d1.alphabet = d2.alphabet)
    {p : DFA (σ₁ × σ₂) α} (hok : intersect_dfa d1 d2 = .ok p) :
    accepts_some p ↔ JointAccept d1 d2 := by
  obtain ⟨p1, hok1, hst, halp, hstart, hacc, htr, hv⟩ := intersect_dfa_spec h1 h2 hal
  rw [hok] at hok1
  injection hok1 with hok1
  subst hok1
  constructor
  · rintro ⟨w, hw, t, hrun, htacc⟩
    rw [halp] at hw
    obtain ⟨t1, t2, hr1, hr2, hrp, _, _⟩ := product_runWord h1 h2 hal htr hw h1.1 h2.1
    rw [hstart, hrp] at hrun
    injection hrun with hrun
    obtain ⟨_, _, ha1, ha2⟩ := (hacc t).mp htacc
    rw [← hrun] at ha1 ha2
    exact ⟨w, hw, ⟨t1, hr1, ha1⟩, ⟨t2, hr2, ha2⟩⟩
  · rintro ⟨w, hw, ⟨t1, hr1, ha1⟩, ⟨t2, hr2, ha2⟩⟩
    obtain ⟨u1, u2, hu1, hu2, hrp, hm1, hm2⟩ := product_runWord h1 h2 hal htr hw h1.1 h2.1
    rw [hr1] at hu1
    injection hu1 with hu1
    rw [hr2] at hu2
    injection hu2 with hu2
    subst hu1
    subst hu2
    refine ⟨w, by rw [halp]; exact hw, (t1, t2), by rw [hstart]; exact hrp, ?_⟩
    exact (hacc (t1, t2)).mpr ⟨hm1, hm2, ha1, ha2⟩

theorem jointAccept_symm {d1 : DFA σ₁ α} {d2 : DFA σ₂ α}
    (hal : d1.alphabet = d2.alphabet) :
    JointAccept d1 d2 ↔ JointAccept d2 d1 := by
  unfold JointAccept
  constructor
  · rintro ⟨w, hw, hA, hB⟩
    exact ⟨w, fun a ha => hal ▸ hw a ha, hB, hA⟩
  · rintro ⟨w, hw, hA, hB⟩
    exact ⟨w, fun a ha => hal.symm ▸ hw a ha, hB, hA⟩

end ProductLemmas

section PipelineLemmas

variable {σ α : Type} [DecidableEq σ] [DecidableEq α]

theorem check_consistency_spec {j1 j2 : DFADesc σ α} {d1 d2 : DFA σ α}
    (hp1 : parse_dfa_json j1 = .ok d1) (hp2 : parse_dfa_json j2 = .ok d2)
    (h1 : d1.Valid) (h2 : d2.Valid) (hal : d1.alphabet = d2.alphabet) :
    ∃ p : DFA (σ × σ) α,
      intersect_dfa d1 d2 = .ok p ∧ p.Valid ∧
      check_consistency j1 j2 = (is_language_empty p).map (Except.map fun b => !b) ∧
      (check_consistency j1 j2 = some (.ok true) ↔ accepts_some p) ∧
      (check_consistency j1 j2 = some (.ok false) ↔ ¬ accepts_some p) := by
  obtain ⟨p, hok, _, _, _, _, _, hv⟩ := intersect_dfa_spec h1 h2 hal
  have hform : check_consistency j1 j2 =
      (is_language_empty p).map (Except.map fun b => !b) := by
    simp only [check_consistency, hp1, hp2, hok]
    cases hE : is_language_empty p with
    | none => rfl
    | some r => cases r with
      | error e => rfl
      | ok b => rfl
  refine ⟨p, hok, hv, hform, ?_, ?_⟩
  · rcases is_language_empty_exhaustive hv with hE | hE
    · rw [hform, hE]
      constructor
      · intro h; simp [Except.map] at h
      · intro h; exact absurd h (is_language_empty_complete hE)
    · rw [hform, hE]
      constructor
      · intro _; exact is_language_empty_sound hE
      · intro _; rfl
  · rcases is_language_empty_exhaustive hv with hE | hE
    · rw [hform, hE]
      constructor
      · intro _; exact is_language_empty_complete hE
      · intro _; rfl
    · rw [hform, hE]
      constructor
      · intro h; simp [Except.map] at h
      · intro h; exact absurd (is_language_empty_sound hE) h

theorem bfs_within_states_fuel {d : DFA σ α} (hv : d.Valid) :
    ∃ r, bfs d (d.states.length + 1) [d.start_state] [d.start_state] = some r ∧
      is_language_empty d = some r := by
  have hne : bfs d (d.states.length + 1) [d.start_state] [d.start_state] ≠ none := by
    refine bfs_fuel_sufficient (U := d.states) ?_ (by simp) (by simp) ?_ ?_
    · intro s hs a ha t ht
      obtain ⟨u, hu, hum⟩ := hv.2.2 s hs a ha
      rw [hu] at ht
      injection ht with ht
      rw [← ht]
      exact hum
    · intro x hx
      simp only [List.mem_singleton] at hx
      rw [hx]
      exact hv.1
    · have hpos : 0 < d.states.length :=
        List.length_pos.mpr (List.ne_nil_of_mem hv.1)
      simp only [List.length_singleton]
      omega
  cases hsmall : bfs d (d.states.length + 1) [d.start_state] [d.start_state] with
  | none => exact absurd hsmall hne
  | some r =>
    refine ⟨r, rfl, ?_⟩
    cases hE : is_language_empty d with
    | none => exact absurd hE (is_language_empty_ne_none d)
    | some r1 =>
      have hE1 : bfs d (bfsFuel d) [d.start_state] [d.start_state] = some r1 := hE
      have hN1 : bfs d (max (d.states.length + 1) (bfsFuel d)) [d.start_state]
          [d.start_state] = some r := bfs_mono (Nat.le_max_left _ _) hsmall
      have hN2 : bfs d (max (d.states.length + 1) (bfsFuel d)) [d.start_state]
          [d.start_state] = some r1 := bfs_mono (Nat.le_max_right _ _) hE1
      rw [hN1] at hN2
      injection hN2 with hN2
      rw [hN2]

theorem parse_malformed {data : DFADesc σ α}
    (h : data.states = none ∨ data.alphabet = none ∨ data.start_state = none ∨
      data.accept_states = none ∨ data.transitions = none) :
    parse_dfa_json data = .error .malformedDescription := by
  obtain ⟨os, oa, o0, oc, ot⟩ := data
  cases os <;> cases oa <;> cases o0 <;> cases oc <;> cases ot <;>
    first
    | rfl
    | simp at h

end PipelineLemmas

/-- Claim C1: for every pair of valid DFA descriptions over a shared alphabet,
`check_consistency` returns `true` exactly when the language of the product of
the two decoded DFAs is non-empty, and its result is the boolean negation of
`is_language_empty` applied to the product DFA. -/
theorem C1_check_consistency_iff_product_nonempty {σ α : Type}
    [DecidableEq σ] [DecidableEq α] (j1 j2 : DFADesc σ α) (d1 d2 : DFA σ α)
    (hp1 : parse_dfa_json j1 = .ok d1) (hp2 : parse_dfa_json j2 = .ok d2)
    (h1 : d1.Valid) (h2 : d2.Valid) (hal : d1.alphabet = d2.alphabet) :
    ∃ p : DFA (σ × σ) α, intersect_dfa d1 d2 = .ok p ∧
      (check_consistency j1 j2 = some (.ok true) ↔ accepts_some p) ∧
      check_consistency j1 j2 = (is_language_empty p).map (Except.map fun b => !b) := by
  obtain ⟨p, hok, _, hform, ht, _⟩ := check_consistency_spec hp1 hp2 h1 h2 hal
  exact ⟨p, hok, ht, hform⟩

/-- Witness for C1 at the driver's `x0`/`x1` automata. -/
theorem C1_check_consistency_iff_product_nonempty_witness :
    parse_dfa_json exDesc1 = .ok exDfa1 ∧ parse_dfa_json exDesc2 = .ok exDfa2 ∧
    exDfa1.Valid ∧ exDfa2.Valid ∧
    ∃ p : DFA (Nat × Nat) Nat, intersect_dfa exDfa1 exDfa2 = .ok p ∧
      (check_consistency exDesc1 exDesc2 = some (.ok true) ↔ accepts_some p) ∧
      check_consistency exDesc1 exDesc2 =
        (is_language_empty p).map (Except.map fun b => !b) :=
  ⟨rfl, rfl, (validB_iff exDfa1).mp (by decide), (validB_iff exDfa2).mp (by decide),
    C1_check_consistency_iff_product_nonempty exDesc1 exDesc2 exDfa1 exDfa2 rfl rfl
      ((validB_iff exDfa1).mp (by decide)) ((validB_iff exDfa2).mp (by decide)) rfl⟩

/-- Claim C2: for every valid DFA, `is_language_empty` answers `true` exactly
when no word over the alphabet drives the start state to an accepting state,
and `false` exactly when some accept state is reachable from the start state
in the transition graph. -/
theorem C2_is_language_empty_iff {σ α : Type} [DecidableEq σ] [DecidableEq α]
    (d : DFA σ α) (hv : d.Valid) :
    (is_language_empty d = some (.ok true) ↔ ¬ accepts_some d) ∧
    (is_language_empty d = some (.ok false) ↔
      ∃ t, Reaches d d.start_state t ∧ t ∈ d.accept_states) :=
  ⟨is_language_empty_true_iff hv,
    (is_language_empty_false_iff hv).trans (accepts_some_iff_reaches d)⟩

/-- Witness for C2 at the `x0` automaton. -/
theorem C2_is_language_empty_iff_witness :
    exDfa1.Valid ∧
    ((is_language_empty exDfa1 = some (.ok true) ↔ ¬ accepts_some exDfa1) ∧
      (is_language_empty exDfa1 = some (.ok false) ↔
        ∃ t, Reaches exDfa1 exDfa1.start_state t ∧ t ∈ exDfa1.accept_states)) :=
  ⟨(validB_iff exDfa1).mp (by decide),
    C2_is_language_empty_iff exDfa1 ((validB_iff exDfa1).mp (by decide))⟩

/-- Claim C3: for valid DFAs over a shared alphabet, the product DFA has the
full Cartesian product of the state sets (hence `m·n` states), paired
transitions `((s1,s2),a) ↦ (δ1(s1,a), δ2(s2,a))`, the paired start state, and
the first operand's alphabet. -/
theorem C3_intersect_structure {σ₁ σ₂ α : Type}
    [DecidableEq σ₁] [DecidableEq σ₂] [DecidableEq α]
    (d1 : DFA σ₁ α) (d2 : DFA σ₂ α)
    (h1 : d1.Valid) (h2 : d2.Valid) (hal : d1.alphabet = d2.alphabet) :
    ∃ p : DFA (σ₁ × σ₂) α, intersect_dfa d1 d2 = .ok p ∧
      p.states = productStates d1.states d2.states ∧
      p.states.length = d1.states.length * d2.states.length ∧
      p.start_state = (d1.start_state, d2.start_state) ∧
      p.alphabet = d1.alphabet ∧
      (∀ s1 ∈ d1.states, ∀ s2 ∈ d2.states, ∀ a ∈ d1.alphabet, ∀ t1 t2,
        d1.transition s1 a = some t1 → d2.transition s2 a = some t2 →
        p.transition (s1, s2) a = some (t1, t2)) := by
  obtain ⟨p, hok, hst, halp, hstart, _, htr, _⟩ := intersect_dfa_spec h1 h2 hal
  exact ⟨p, hok, hst, by rw [hst, productStates_length], hstart, halp, htr⟩

/-- Witness for C3 at the `x0`/`x1` automata. -/
theorem C3_intersect_structure_witness :
    exDfa1.Valid ∧ exDfa2.Valid ∧
    ∃ p : DFA (Nat × Nat) Nat, intersect_dfa exDfa1 exDfa2 = .ok p ∧
      p.states = productStates exDfa1.states exDfa2.states ∧
      p.states.length = exDfa1.states.length * exDfa2.states.length ∧
      p.start_state = (exDfa1.start_state, exDfa2.start_state) ∧
      p.alphabet = exDfa1.alphabet ∧
      (∀ s1 ∈ exDfa1.states, ∀ s2 ∈ exDfa2.states, ∀ a ∈ exDfa1.alphabet, ∀ t1 t2,
        exDfa1.transition s1 a = some t1 → exDfa2.transition s2 a = some t2 →
        p.transition (s1, s2) a = some (t1, t2)) :=
  ⟨(validB_iff exDfa1).mp (by decide), (validB_iff exDfa2).mp (by decide),
    C3_intersect_structure exDfa1 exDfa2
      ((validB_iff exDfa1).mp (by decide)) ((validB_iff exDfa2).mp (by decide)) rfl⟩

/-- Claim C4: for valid DFAs over a shared alphabet, a product state `(s1,s2)`
is accepting exactly when `s1` is accepting in the first operand and `s2` is
accepting in the second. -/
theorem C4_conjunctive_acceptance {σ₁ σ₂ α : Type}
    [DecidableEq σ₁] [DecidableEq σ₂] [DecidableEq α]
    (d1 : DFA σ₁ α) (d2 : DFA σ₂ α)
    (h1 : d1.Valid) (h2 : d2.Valid) (hal : d1.alphabet = d2.alphabet) :
    ∃ p : DFA (σ₁ × σ₂) α, intersect_dfa d1 d2 = .ok p ∧
      ∀ s1 s2, ((s1, s2) ∈ p.accept_states ↔
        s1 ∈ d1.accept_states ∧ s2 ∈ d2.accept_states) := by
  obtain ⟨p, hok, _, _, _, hacc, _, _⟩ := intersect_dfa_spec h1 h2 hal
  refine ⟨p, hok, fun s1 s2 => ?_⟩
  rw [hacc (s1, s2)]
  constructor
  · rintro ⟨_, _, a1, a2⟩; exact ⟨a1, a2⟩
  · rintro ⟨a1, a2⟩; exact ⟨h1.2.1 s1 a1, h2.2.1 s2 a2, a1, a2⟩

/-- Witness for C4 at the `x0`/`x1` automata. -/
theorem C4_conjunctive_acceptance_witness :
    exDfa1.Valid ∧ exDfa2.Valid ∧
    ∃ p : DFA (Nat × Nat) Nat, intersect_dfa exDfa1 exDfa2 = .ok p ∧
      ∀ s1 s2, ((s1, s2) ∈ p.accept_states ↔
        s1 ∈ exDfa1.accept_states ∧ s2 ∈ exDfa2.accept_states) :=
  ⟨(validB_iff exDfa1).mp (by decide), (validB_iff exDfa2).mp (by decide),
    C4_conjunctive_acceptance exDfa1 exDfa2
      ((validB_iff exDfa1).mp (by decide)) ((validB_iff exDfa2).mp (by decide)) rfl⟩

/-- Claim C5: on every valid DFA the breadth-first search terminates, cycles
included: the visited set lets each state be enqueued at most once, so the
search is already complete within `|states|` dequeues (fuel `|states| + 1`
suffices), and `is_language_empty` returns that same result. -/
theorem C5_search_terminates {σ α : Type} [DecidableEq σ] [DecidableEq α]
    (d : DFA σ α) (hv : d.Valid) :
    ∃ r, bfs d (d.states.length + 1) [d.start_state] [d.start_state] = some r ∧
      is_language_empty d = some r :=
  bfs_within_states_fuel hv

/-- Witness for C5 at the `x0` automaton (whose graph has cycles). -/
theorem C5_search_terminates_witness :
    exDfa1.Valid ∧
    ∃ r, bfs exDfa1 (exDfa1.states.length + 1) [exDfa1.start_state]
        [exDfa1.start_state] = some r ∧
      is_language_empty exDfa1 = some r :=
  ⟨(validB_iff exDfa1).mp (by decide),
    C5_search_terminates exDfa1 ((validB_iff exDfa1).mp (by decide))⟩

/-- Claim C6: consistency is symmetric — for valid descriptions over the same
alphabet, `check_consistency j1 j2` and `check_consistency j2 j1` agree. -/
theorem C6_consistency_symmetric {σ α : Type} [DecidableEq σ] [DecidableEq α]
    (j1 j2 : DFADesc σ α) (d1 d2 : DFA σ α)
    (hp1 : parse_dfa_json j1 = .ok d1) (hp2 : parse_dfa_json j2 = .ok d2)
    (h1 : d1.Valid) (h2 : d2.Valid) (hal : d1.alphabet = d2.alphabet) :
    check_consistency j1 j2 = check_consistency j2 j1 := by
  obtain ⟨p12, hok12, _, _, ht12, hf12⟩ := check_consistency_spec hp1 hp2 h1 h2 hal
  obtain ⟨p21, hok21, _, _, ht21, hf21⟩ := check_consistency_spec hp2 hp1 h2 h1 hal.symm
  have hA : accepts_some p12 ↔ JointAccept d1 d2 := product_accepts_iff h1 h2 hal hok12
  have hB : accepts_some p21 ↔ JointAccept d2 d1 :=
    product_accepts_iff h2 h1 hal.symm hok21
  by_cases hJ : JointAccept d1 d2
  · rw [ht12.mpr (hA.mpr hJ), ht21.mpr (hB.mpr ((jointAccept_symm hal).mp hJ))]
  · have h12 := hf12.mpr (fun hacc => hJ (hA.mp hacc))
    have h21 := hf21.mpr (fun hacc => hJ ((jointAccept_symm hal).mpr (hB.mp hacc)))
    rw [h12, h21]

/-- Witness for C6 at the `x0`/`x1` automata. -/
theorem C6_consistency_symmetric_witness :
    check_consistency exDesc1 exDesc2 = check_consistency exDesc2 exDesc1 :=
  C6_consistency_symmetric exDesc1 exDesc2 exDfa1 exDfa2 rfl rfl
    ((validB_iff exDfa1).mp (by decide)) ((validB_iff exDfa2).mp (by decide)) rfl

/-- Claim C7: any valid DFA description whose language is non-empty is
consistent with itself. -/
theorem C7_self_consistency {σ α : Type} [DecidableEq σ] [DecidableEq α]
    (j : DFADesc σ α) (d : DFA σ α)
    (hp : parse_dfa_json j = .ok d) (hv : d.Valid) (hne : accepts_some d) :
    check_consistency j j = some (.ok true) := by
  obtain ⟨p, hok, _, _, ht, _⟩ := check_consistency_spec hp hp hv hv rfl
  refine ht.mpr ?_
  rw [product_accepts_iff hv hv rfl hok]
  obtain ⟨w, hw, t, hrun, hacc⟩ := hne
  exact ⟨w, hw, ⟨t, hrun, hacc⟩, ⟨t, hrun, hacc⟩⟩

/-- Witness for C7 at the `x1` automaton, which accepts the word `[1]`. -/
theorem C7_self_consistency_witness :
    exDfa2.Valid ∧ accepts_some exDfa2 ∧
    check_consistency exDesc2 exDesc2 = some (.ok true) :=
  ⟨(validB_iff exDfa2).mp (by decide), ⟨[1], by decide, 1, rfl, by decide⟩,
    C7_self_consistency exDesc2 exDfa2 rfl ((validB_iff exDfa2).mp (by decide))
      ⟨[1], by decide, 1, rfl, by decide⟩⟩

/-- Claim C8: the decoder fails with `malformedDescription` whenever any of the
five expected fields is missing — in particular when `start_state` is missing —
and that error kind is distinct from `invalidAutomaton` and
`undefinedTransition`. -/
theorem C8_decoder_malformed {σ α : Type} [DecidableEq σ] [DecidableEq α]
    (data : DFADesc σ α)
    (h : data.states = none ∨ data.alphabet = none ∨ data.start_state = none ∨
      data.accept_states = none ∨ data.transitions = none) :
    parse_dfa_json data = .error .malformedDescription ∧
    DFAError.malformedDescription ≠ DFAError.invalidAutomaton ∧
    DFAError.malformedDescription ≠ DFAError.undefinedTransition :=
  ⟨parse_malformed h, by decide, by decide⟩

/-- Witness for C8 at a description missing its `start_state` field. -/
theorem C8_decoder_malformed_witness :
    exDescNoStart.start_state = none ∧
    parse_dfa_json exDescNoStart = .error .malformedDescription ∧
    DFAError.malformedDescription ≠ DFAError.invalidAutomaton ∧
    DFAError.malformedDescription ≠ DFAError.undefinedTransition :=
  ⟨rfl, C8_decoder_malformed exDescNoStart (Or.inr (Or.inr (Or.inl rfl)))⟩

/-- Counterexample to C9 as stated: `exExtraRow` is a valid DFA whose
transition table carries a row for the label 1 even though 1 is not in
`states`; the lookup `transition 1 0` succeeds instead of failing. -/
theorem C9_counterexample_lookup_succeeds :
    exExtraRow.Valid ∧ (1 : Nat) ∉ exExtraRow.states ∧
    exExtraRow.transition 1 0 ≠ none ∧ exExtraRow.transition 1 0 = some 0 :=
  ⟨(validB_iff exExtraRow).mp (by decide), by decide, by decide, by decide⟩

/-- Claim C9 (amended): transition lookup fails exactly when the transition
table has no mapping for the state/symbol pair — no membership check against
`states` or `alphabet` is performed — and such a missing mapping reached by the
search surfaces as an `undefinedTransition` error. -/
theorem C9_transition_failure_amended {σ α : Type} [DecidableEq σ] [DecidableEq α]
    (d : DFA σ α) (s : σ) (a : α) :
    (d.transition s a = none ↔ dictLookup s d.transitions = none ∨
      ∃ row, dictLookup s d.transitions = some row ∧ dictLookup a row = none) ∧
    (d.start_state ∉ d.accept_states →
      (∃ b ∈ d.alphabet, d.transition d.start_state b = none) →
      is_language_empty d = some (.error .undefinedTransition)) :=
  ⟨transition_none_iff, fun hna hmiss => is_language_empty_error_of_missing hna hmiss⟩

/-- Witness for the amended C9 at a DFA with an empty transition table. -/
theorem C9_transition_failure_amended_witness :
    (exPartial.transition 0 0 = none ↔ dictLookup (0 : Nat) exPartial.transitions = none ∨
      ∃ row, dictLookup (0 : Nat) exPartial.transitions = some row ∧
        dictLookup (0 : Nat) row = none) ∧
    is_language_empty exPartial = some (.error .undefinedTransition) :=
  ⟨(C9_transition_failure_amended exPartial 0 0).1,
    (C9_transition_failure_amended exPartial 0 0).2 (by decide) ⟨0, by decide, rfl⟩⟩

/-- Claim C10: whenever the start state is accepting, `is_language_empty`
returns `false` at the very first dequeue, with no transition lookup — the
theorem holds for every DFA, including one whose transition table is entirely
missing. -/
theorem C10_start_accepting_short_circuit {σ α : Type} [DecidableEq σ] [DecidableEq α]
    (d : DFA σ α) (h : d.start_state ∈ d.accept_states) :
    is_language_empty d = some (.ok false) := by
  unfold is_language_empty bfsFuel
  simp only [bfs, if_pos h]

/-- Witness for C10 at a DFA with an accepting start state and no transition
table at all. -/
theorem C10_start_accepting_short_circuit_witness :
    exStartAccept.start_state ∈ exStartAccept.accept_states ∧
    is_language_empty exStartAccept = some (.ok false) :=
  ⟨by decide, C10_start_accepting_short_circuit exStartAccept (by decide)⟩

end Task1
